import Mathlib

/-!
Shallow embedding of src/src/Core/EventEmitter.h (class Core::EventEmitter).

The header declares the full API (On, Once, Off, Emit, ProcessEvents), the
EventType enumeration, the type-erased listener records (ListenerBase and
Listener<Arguments...>), and the data members

    std::mutex m_mutex;
    unsigned int m_lastRawListenerId{0};
    std::multimap<EventId, std::shared_ptr<ListenerBase>> m_registry;

but contains no member-function bodies.  The bodies are therefore modelled
from the specification (sections 4.1 to 4.4 of spec.md).  What the header
does fix is kept faithfully: the listener-id counter is an unsigned int, so
its arithmetic is carried out modulo 2 ^ 32; the registry is an ordered
multimap from EventId to records, embedded as an insertion-ordered list of
records each carrying its EventId; records store id, once-flag, delivery
mode and the registering thread id, plus the type-erased callback.

Callbacks are type-erased in the source; the model identifies a callback by
a natural number and records every invocation in a ghost trace, so that the
theorems can speak about which callback ran, with which arguments, on which
thread, and in which order.  Each registration additionally receives a
model-level serial number (an unbounded Nat): it stands for the identity of
the heap-allocated record object (the shared_ptr target), which is distinct
for every registration even when raw listener ids wrap around.
-/

namespace Core

/-- Width of the unsigned int backing ListenerId: ids live modulo 2 ^ 32. -/
def uintMod : Nat := 2 ^ 32

/-- EventType enumeration from the header: Immediate = 0, ThreadLocal = 1, Async = 2. -/
inductive EventType where
  | Immediate
  | ThreadLocal
  | Async
deriving DecidableEq, Repr

/-- One type-erased listener record: the ListenerBase metadata (listenerId,
once flag, eventType, registering threadId) together with the EventId key it
is filed under in m_registry, the identity of the stored callback, and the
model-level serial number standing for the identity of the record object. -/
structure ListenerRecord where
  serial : Nat
  listenerId : Nat
  eventId : Nat
  once : Bool
  eventType : EventType
  threadId : Nat
  cb : Nat
deriving DecidableEq, Repr

/-- A bound invocation (callback plus arguments) waiting in the per-thread
pending queue of a ThreadLocal listener; owner is the thread that must drain
it via ProcessEvents. -/
structure PendingInvocation where
  serial : Nat
  cb : Nat
  args : List Nat
  owner : Nat
  once : Bool
deriving DecidableEq, Repr

/-- One observed callback invocation, recorded in the ghost trace.  thread is
the thread the callback ran on (none for Async, whose execution context is
system-managed); fromDrain marks invocations performed by ProcessEvents as
opposed to directly by Emit. -/
structure Invocation where
  serial : Nat
  cb : Nat
  args : List Nat
  thread : Option Nat
  once : Bool
  fromDrain : Bool
deriving DecidableEq, Repr

/-- The per-instance state of one EventEmitter: the unsigned-int id counter
m_lastRawListenerId, the registry (ordered multimap embedded as an
insertion-ordered list), and the model-level serial counter for record
identities. -/
structure EventEmitter where
  m_lastRawListenerId : Nat
  nextSerial : Nat
  m_registry : List ListenerRecord
deriving DecidableEq, Repr

/-- A world: one emitter plus the cross-thread pending queues (flattened into
one insertion-ordered list, each entry tagged with its owning thread) and the
ghost trace of invocations performed so far. -/
structure World where
  em : EventEmitter
  queues : List PendingInvocation
  trace : List Invocation
deriving DecidableEq, Repr

/-- Modelled from the spec: AddEventListener (section 4.1) has no body in the
header.  It allocates a fresh ListenerId strictly greater than the last one,
in unsigned-int arithmetic hence modulo 2 ^ 32, tags the record with the mode,
the calling thread and the once flag, and appends it to the bucket for
eventId (list append preserves per-event insertion order). -/
def AddEventListener (e cb : Nat) (once : Bool) (mode : EventType) (t : Nat)
    (s : EventEmitter) : EventEmitter × Nat :=
  let newId := (s.m_lastRawListenerId + 1) % uintMod
  ({ m_lastRawListenerId := newId
     nextSerial := s.nextSerial + 1
     m_registry := s.m_registry ++
       [{ serial := s.nextSerial, listenerId := newId, eventId := e,
          once := once, eventType := mode, threadId := t, cb := cb }] }, newId)

/-- Modelled from the spec: On (section 4.1) registers with once = false. -/
def On (s : EventEmitter) (e cb : Nat) (mode : EventType) (t : Nat) :
    EventEmitter × Nat :=
  AddEventListener e cb false mode t s

/-- Modelled from the spec: Once (section 4.1) is identical to On but with
once = true. -/
def Once (s : EventEmitter) (e cb : Nat) (mode : EventType) (t : Nat) :
    EventEmitter × Nat :=
  AddEventListener e cb true mode t s

/-- Modelled from the spec: Off (section 4.1) has no body in the header.  It
removes the record with the given listenerId from whichever bucket holds it;
if no record with that id exists it is a no-op. -/
def Off (s : EventEmitter) (lid : Nat) : EventEmitter :=
  { s with m_registry := s.m_registry.filter (fun r => r.listenerId != lid) }

/-- Modelled from the spec: the routing of one snapshotted record by Emit
(section 4.3 step 2) for the modes Emit invokes directly: Immediate runs
synchronously on the calling thread t, Async on a separate system-managed
thread (recorded as none); ThreadLocal is not invoked by Emit. -/
def immediateInvocation (t : Nat) (args : List Nat) (r : ListenerRecord) :
    Option Invocation :=
  match r.eventType with
  | .Immediate => some { serial := r.serial, cb := r.cb, args := args,
                         thread := some t, once := r.once, fromDrain := false }
  | .Async => some { serial := r.serial, cb := r.cb, args := args,
                     thread := none, once := r.once, fromDrain := false }
  | .ThreadLocal => none

/-- Modelled from the spec: Emit routing for ThreadLocal records (section 4.3
step 2): a bound invocation is appended to the pending queue of the thread
that registered the listener. -/
def threadLocalEnqueue (args : List Nat) (r : ListenerRecord) :
    Option PendingInvocation :=
  match r.eventType with
  | .ThreadLocal => some { serial := r.serial, cb := r.cb, args := args,
                           owner := r.threadId, once := r.once }
  | _ => none

/-- Modelled from the spec: Emit (section 4.3) has no body in the header.
Step 1 snapshots the bucket for the event id; step 2 routes every snapshotted
record by its mode (Immediate and Async invocations enter the trace in
registration order, ThreadLocal invocations are enqueued); step 3 removes
every once-flagged snapshotted record from the registry, so for ThreadLocal
once-listeners removal happens at enqueue time. -/
def Emit (w : World) (e : Nat) (args : List Nat) (t : Nat) : World :=
  let snapshot := w.em.m_registry.filter (fun r => r.eventId == e)
  { em := { w.em with
      m_registry := w.em.m_registry.filter (fun r => !(r.eventId == e && r.once)) }
    queues := w.queues ++ snapshot.filterMap (threadLocalEnqueue args)
    trace := w.trace ++ snapshot.filterMap (immediateInvocation t args) }

/-- The invocation produced when thread t drains one pending entry. -/
def drainInvocation (t : Nat) (q : PendingInvocation) : Invocation :=
  { serial := q.serial, cb := q.cb, args := q.args,
    thread := some t, once := q.once, fromDrain := true }

/-- Modelled from the spec: ProcessEvents (section 4.4) has no body in the
header.  The calling thread t pops and invokes all currently queued
ThreadLocal invocations owned by t, in the order they were enqueued, and does
not touch the registry (once records were already removed at enqueue time). -/
def ProcessEvents (w : World) (t : Nat) : World :=
  { w with
    queues := w.queues.filter (fun q => q.owner != t)
    trace := w.trace ++ (w.queues.filter (fun q => q.owner == t)).map (drainInvocation t) }

/-- One call of the public interface, tagged with the calling thread. -/
inductive Op where
  | On (eventId cb : Nat) (mode : EventType) (thread : Nat)
  | Once (eventId cb : Nat) (mode : EventType) (thread : Nat)
  | Off (listenerId : Nat)
  | Emit (eventId : Nat) (args : List Nat) (thread : Nat)
  | ProcessEvents (thread : Nat)
deriving DecidableEq, Repr

/-- Interpreting one API call on a world. -/
def step (op : Op) (w : World) : World :=
  match op with
  | .On e cb mode t => { w with em := (On w.em e cb mode t).1 }
  | .Once e cb mode t => { w with em := (Once w.em e cb mode t).1 }
  | .Off lid => { w with em := Off w.em lid }
  | .Emit e args t => Emit w e args t
  | .ProcessEvents t => ProcessEvents w t

/-- Running a sequence of API calls. -/
def run (ops : List Op) (w : World) : World :=
  ops.foldl (fun w op => step op w) w

/-- A freshly constructed EventEmitter: counter 0, empty registry, and no
pending or performed invocations. -/
def init : World :=
  { em := { m_lastRawListenerId := 0, nextSerial := 0, m_registry := [] }
    queues := [], trace := [] }

/-! Counting helpers: occurrences of a given record serial in the registry,
in the pending queues, and in the invocation trace. -/

/-- Number of registry records carrying serial s. -/
def regCountS (w : World) (s : Nat) : Nat :=
  w.em.m_registry.countP (fun r => r.serial == s)

/-- Number of pending queue entries carrying serial s. -/
def qCountS (w : World) (s : Nat) : Nat :=
  w.queues.countP (fun q => q.serial == s)

/-- Number of performed invocations carrying serial s. -/
def tCountS (w : World) (s : Nat) : Nat :=
  w.trace.countP (fun i => i.serial == s)

/-- Number of invocations of serial s performed directly by Emit
(Immediate or Async routing), as opposed to by a ProcessEvents drain. -/
def directCountS (w : World) (s : Nat) : Nat :=
  w.trace.countP (fun i => i.serial == s && !i.fromDrain)

/-- Number of invocations of serial s performed by ProcessEvents drains. -/
def drainCountS (w : World) (s : Nat) : Nat :=
  w.trace.countP (fun i => i.serial == s && i.fromDrain)

/-- Every serial mentioned anywhere in the world is below the serial
counter; holds in every reachable world. -/
def SerialBound (w : World) : Prop :=
  (∀ r ∈ w.em.m_registry, r.serial < w.em.nextSerial) ∧
  (∀ q ∈ w.queues, q.serial < w.em.nextSerial) ∧
  (∀ i ∈ w.trace, i.serial < w.em.nextSerial)

theorem serialBound_init : SerialBound init := by
  refine ⟨?_, ?_, ?_⟩ <;> intro x hx <;> simp [init] at hx

theorem serialBound_step (op : Op) (w : World) (h : SerialBound w) :
    SerialBound (step op w) := by
  obtain ⟨hr, hq, ht⟩ := h
  cases op with
  | On e cb mode t =>
      refine ⟨?_, ?_, ?_⟩ <;> intro x hx
      · simp only [step, On, AddEventListener, List.mem_append,
          List.mem_singleton] at hx ⊢
        rcases hx with hx | hx
        · exact Nat.lt_succ_of_lt (hr x hx)
        · subst hx; exact Nat.lt_succ_self _
      · exact Nat.lt_succ_of_lt (hq x hx)
      · exact Nat.lt_succ_of_lt (ht x hx)
  | Once e cb mode t =>
      refine ⟨?_, ?_, ?_⟩ <;> intro x hx
      · simp only [step, Once, AddEventListener, List.mem_append,
          List.mem_singleton] at hx ⊢
        rcases hx with hx | hx
        · exact Nat.lt_succ_of_lt (hr x hx)
        · subst hx; exact Nat.lt_succ_self _
      · exact Nat.lt_succ_of_lt (hq x hx)
      · exact Nat.lt_succ_of_lt (ht x hx)
  | Off lid =>
      refine ⟨?_, hq, ht⟩
      intro x hx
      simp only [step, Off, List.mem_filter] at hx
      exact hr x hx.1
  | Emit e args t =>
      refine ⟨?_, ?_, ?_⟩ <;> intro x hx
      · simp only [step, Emit, List.mem_filter] at hx
        exact hr x hx.1
      · simp only [step, Emit, List.mem_append] at hx
        rcases hx with hx | hx
        · exact hq x hx
        · obtain ⟨r, hrmem, hfr⟩ := List.mem_filterMap.1 hx
          have hrm := (List.mem_filter.1 hrmem).1
          have : x.serial = r.serial := by
            unfold threadLocalEnqueue at hfr
            cases hev : r.eventType <;> simp [hev] at hfr <;> simp [hfr.symm]
          rw [this]; exact hr r hrm
      · simp only [step, Emit, List.mem_append] at hx
        rcases hx with hx | hx
        · exact ht x hx
        · obtain ⟨r, hrmem, hfr⟩ := List.mem_filterMap.1 hx
          have hrm := (List.mem_filter.1 hrmem).1
          have : x.serial = r.serial := by
            unfold immediateInvocation at hfr
            cases hev : r.eventType <;> simp [hev] at hfr <;> simp [← hfr]
          rw [this]; exact hr r hrm
  | ProcessEvents t =>
      refine ⟨hr, ?_, ?_⟩ <;> intro x hx
      · simp only [step, ProcessEvents, List.mem_filter] at hx
        exact hq x hx.1
      · simp only [step, ProcessEvents, List.mem_append] at hx
        rcases hx with hx | hx
        · exact ht x hx
        · obtain ⟨q, hqmem, hfq⟩ := List.mem_map.1 hx
          have hqm := (List.mem_filter.1 hqmem).1
          rw [← hfq]
          exact hq q hqm

theorem serialBound_run (ops : List Op) (w : World) (h : SerialBound w) :
    SerialBound (run ops w) := by
  induction ops generalizing w with
  | nil => exact h
  | cons op ops ih => exact ih _ (serialBound_step op w h)

/-- The serial counter never decreases along a run. -/
theorem nextSerial_le_step (op : Op) (w : World) :
    w.em.nextSerial ≤ (step op w).em.nextSerial := by
  cases op <;> simp [step, On, Once, Off, Emit, ProcessEvents, AddEventListener]

theorem nextSerial_le_run (ops : List Op) (w : World) :
    w.em.nextSerial ≤ (run ops w).em.nextSerial := by
  induction ops generalizing w with
  | nil => exact Nat.le_refl _
  | cons op ops ih => exact Nat.le_trans (nextSerial_le_step op w) (ih (step op w))

theorem run_cons (op : Op) (ops : List Op) (w : World) :
    run (op :: ops) w = run ops (step op w) := rfl

theorem run_append (ops₁ ops₂ : List Op) (w : World) :
    run (ops₁ ++ ops₂) w = run ops₂ (run ops₁ w) := by
  simp [run, List.foldl_append]

/-- Bool test for the ThreadLocal delivery mode of a record. -/
def isThreadLocal (r : ListenerRecord) : Bool :=
  match r.eventType with
  | .ThreadLocal => true
  | _ => false

theorem countP_and_split (l : List α) (p q : α → Bool) :
    l.countP (fun a => p a && q a) + l.countP (fun a => p a && !q a)
      = l.countP p := by
  induction l with
  | nil => rfl
  | cons a l ih =>
      simp only [List.countP_cons]
      cases hp : p a <;> cases hq : q a <;> simp [hp, hq] <;> omega

theorem countS_filterMap_tl (args : List Nat) (s : Nat) :
    ∀ l : List ListenerRecord,
    (l.filterMap (threadLocalEnqueue args)).countP (fun q => q.serial == s)
      = l.countP (fun r => r.serial == s && isThreadLocal r)
  | [] => rfl
  | r :: l => by
      rw [List.filterMap_cons]
      cases hev : r.eventType <;>
        simp [threadLocalEnqueue, hev, isThreadLocal, List.countP_cons,
          countS_filterMap_tl args s l]

theorem countS_filterMap_imm (t : Nat) (args : List Nat) (s : Nat) :
    ∀ l : List ListenerRecord,
    (l.filterMap (immediateInvocation t args)).countP (fun i => i.serial == s)
      = l.countP (fun r => r.serial == s && !isThreadLocal r)
  | [] => rfl
  | r :: l => by
      rw [List.filterMap_cons]
      cases hev : r.eventType <;>
        simp [immediateInvocation, hev, isThreadLocal, List.countP_cons,
          countS_filterMap_imm t args s l]

theorem directS_filterMap_imm (t : Nat) (args : List Nat) (s : Nat) :
    ∀ l : List ListenerRecord,
    (l.filterMap (immediateInvocation t args)).countP
        (fun i => i.serial == s && !i.fromDrain)
      = l.countP (fun r => r.serial == s && !isThreadLocal r)
  | [] => rfl
  | r :: l => by
      rw [List.filterMap_cons]
      cases hev : r.eventType <;>
        simp [immediateInvocation, hev, isThreadLocal, List.countP_cons,
          directS_filterMap_imm t args s l]

theorem drainS_filterMap_imm (t : Nat) (args : List Nat) (s : Nat) :
    ∀ l : List ListenerRecord,
    (l.filterMap (immediateInvocation t args)).countP
        (fun i => i.serial == s && i.fromDrain)
      = 0
  | [] => rfl
  | r :: l => by
      rw [List.filterMap_cons]
      cases hev : r.eventType <;>
        simp [immediateInvocation, hev, List.countP_cons,
          drainS_filterMap_imm t args s l]

theorem countS_map_drain (t s : Nat) (l : List PendingInvocation) :
    (l.map (drainInvocation t)).countP (fun i => i.serial == s)
      = l.countP (fun q => q.serial == s) := by
  rw [List.countP_map]; rfl

theorem drainS_map_drain (t s : Nat) (l : List PendingInvocation) :
    (l.map (drainInvocation t)).countP (fun i => i.serial == s && i.fromDrain)
      = l.countP (fun q => q.serial == s) := by
  rw [List.countP_map]
  apply List.countP_congr
  intro q _
  simp [drainInvocation]

theorem directS_map_drain (t s : Nat) (l : List PendingInvocation) :
    (l.map (drainInvocation t)).countP (fun i => i.serial == s && !i.fromDrain)
      = 0 := by
  rw [List.countP_map]
  apply List.countP_eq_zero.2
  intro q _
  simp [drainInvocation]

theorem countP_congr_bool {p q : α → Bool} (l : List α)
    (h : ∀ a ∈ l, p a = q a) : l.countP p = l.countP q :=
  List.countP_congr (fun a ha => by rw [h a ha])

/-! Per-op unfoldings of the counting functions. -/

theorem on_regCountS (w : World) (e cb : Nat) (mode : EventType) (t s : Nat) :
    regCountS (step (.On e cb mode t) w) s
      = regCountS w s + if w.em.nextSerial == s then 1 else 0 := by
  simp [step, On, AddEventListener, regCountS, List.countP_append,
    List.countP_singleton]

theorem once_regCountS (w : World) (e cb : Nat) (mode : EventType) (t s : Nat) :
    regCountS (step (.Once e cb mode t) w) s
      = regCountS w s + if w.em.nextSerial == s then 1 else 0 := by
  simp [step, Once, AddEventListener, regCountS, List.countP_append,
    List.countP_singleton]

theorem emit_regCountS (w : World) (e : Nat) (args : List Nat) (t s : Nat) :
    regCountS (step (.Emit e args t) w) s
      = w.em.m_registry.countP
          (fun r => r.serial == s && !(r.eventId == e && r.once)) := by
  simp [step, Emit, regCountS, List.countP_filter]

theorem emit_qCountS (w : World) (e : Nat) (args : List Nat) (t s : Nat) :
    qCountS (step (.Emit e args t) w) s
      = qCountS w s + w.em.m_registry.countP
          (fun r => (r.serial == s && isThreadLocal r) && r.eventId == e) := by
  simp [step, Emit, qCountS, List.countP_append, countS_filterMap_tl,
    List.countP_filter]

theorem emit_tCountS (w : World) (e : Nat) (args : List Nat) (t s : Nat) :
    tCountS (step (.Emit e args t) w) s
      = tCountS w s + w.em.m_registry.countP
          (fun r => (r.serial == s && !isThreadLocal r) && r.eventId == e) := by
  simp [step, Emit, tCountS, List.countP_append, countS_filterMap_imm,
    List.countP_filter]

theorem emit_directCountS (w : World) (e : Nat) (args : List Nat) (t s : Nat) :
    directCountS (step (.Emit e args t) w) s
      = directCountS w s + w.em.m_registry.countP
          (fun r => (r.serial == s && !isThreadLocal r) && r.eventId == e) := by
  simp [step, Emit, directCountS, List.countP_append, directS_filterMap_imm,
    List.countP_filter]

theorem emit_drainCountS (w : World) (e : Nat) (args : List Nat) (t s : Nat) :
    drainCountS (step (.Emit e args t) w) s = drainCountS w s := by
  simp [step, Emit, drainCountS, List.countP_append, drainS_filterMap_imm]

theorem pe_qCountS (w : World) (t s : Nat) :
    qCountS (step (.ProcessEvents t) w) s
      = w.queues.countP (fun q => q.serial == s && !(q.owner == t)) := by
  simp [step, ProcessEvents, qCountS, List.countP_filter, bne]

theorem pe_tCountS (w : World) (t s : Nat) :
    tCountS (step (.ProcessEvents t) w) s
      = tCountS w s
        + w.queues.countP (fun q => q.serial == s && q.owner == t) := by
  simp [step, ProcessEvents, tCountS, List.countP_append, countS_map_drain,
    List.countP_filter, drainInvocation]

theorem pe_drainCountS (w : World) (t s : Nat) :
    drainCountS (step (.ProcessEvents t) w) s
      = drainCountS w s
        + w.queues.countP (fun q => q.serial == s && q.owner == t) := by
  simp [step, ProcessEvents, drainCountS, List.countP_append, drainS_map_drain,
    List.countP_filter, drainInvocation]

theorem pe_directCountS (w : World) (t s : Nat) :
    directCountS (step (.ProcessEvents t) w) s = directCountS w s := by
  simp [step, ProcessEvents, directCountS, List.countP_append, directS_map_drain,
    drainInvocation]

theorem off_regCountS_le (w : World) (lid s : Nat) :
    regCountS (step (.Off lid) w) s ≤ regCountS w s := by
  simp only [step, Off, regCountS, List.countP_filter]
  exact List.countP_mono_left (fun r _ h => by
    simpa using (Bool.and_elim_left h))

/-- The invariant tracking one registered listener record r0 through a run:
the serial of r0 is taken, at most one registry record carries it and any
such record is r0 itself, every pending entry with that serial was built
from r0, every performed invocation with that serial ran the callback of r0
(and, for a ThreadLocal r0, ran on the registering thread during a drain),
and for a once listener the record, its pending entries and its invocations
total at most one. -/
structure TracksRecord (r0 : ListenerRecord) (w : World) : Prop where
  serial_lt : r0.serial < w.em.nextSerial
  reg_le_one : regCountS w r0.serial ≤ 1
  reg_eq : ∀ r ∈ w.em.m_registry, r.serial = r0.serial → r = r0
  queue_shape : ∀ q ∈ w.queues, q.serial = r0.serial →
      q.cb = r0.cb ∧ q.owner = r0.threadId ∧ q.once = r0.once
  trace_shape : ∀ i ∈ w.trace, i.serial = r0.serial →
      i.cb = r0.cb ∧ i.once = r0.once ∧
      (r0.eventType = .ThreadLocal → i.thread = some r0.threadId ∧
        i.fromDrain = true)
  once_bound : r0.once = true →
      regCountS w r0.serial + qCountS w r0.serial + tCountS w r0.serial ≤ 1

theorem mem_filterMap_tl {args : List Nat} {x : PendingInvocation}
    {l : List ListenerRecord} (hx : x ∈ l.filterMap (threadLocalEnqueue args)) :
    ∃ r ∈ l, r.eventType = .ThreadLocal ∧
      x = { serial := r.serial, cb := r.cb, args := args,
            owner := r.threadId, once := r.once } := by
  obtain ⟨r, hr, hfr⟩ := List.mem_filterMap.1 hx
  cases hev : r.eventType <;> rw [threadLocalEnqueue, hev] at hfr <;>
    simp at hfr
  exact ⟨r, hr, hev, hfr.symm⟩

theorem mem_filterMap_imm {t : Nat} {args : List Nat} {x : Invocation}
    {l : List ListenerRecord}
    (hx : x ∈ l.filterMap (immediateInvocation t args)) :
    ∃ r ∈ l, r.eventType ≠ .ThreadLocal ∧
      x.serial = r.serial ∧ x.cb = r.cb ∧ x.once = r.once := by
  obtain ⟨r, hr, hfr⟩ := List.mem_filterMap.1 hx
  cases hev : r.eventType <;> rw [immediateInvocation, hev] at hfr <;>
    simp at hfr
  · exact ⟨r, hr, by simp [hev], by simp [← hfr]⟩
  · exact ⟨r, hr, by simp [hev], by simp [← hfr]⟩

theorem bool_rearr1 (a b c : Bool) : ((a && b) && c) = ((a && c) && b) := by
  cases a <;> cases b <;> cases c <;> rfl

/-- The tracking invariant is preserved by every API call. -/
theorem tracks_step (r0 : ListenerRecord) (op : Op) (w : World)
    (h : TracksRecord r0 w) : TracksRecord r0 (step op w) := by
  obtain ⟨h1, h2, h3, h4, h5, h6⟩ := h
  have hserne : (w.em.nextSerial == r0.serial) = false := by
    simp [Nat.ne_of_gt h1]
  cases op with
  | On e cb mode t =>
      refine ⟨Nat.lt_succ_of_lt h1, ?_, ?_, h4, h5, ?_⟩
      · rw [on_regCountS, hserne]; simpa using h2
      · intro r hr hrs
        simp only [step, On, AddEventListener, List.mem_append,
          List.mem_singleton] at hr
        rcases hr with hr | hr
        · exact h3 r hr hrs
        · exfalso; subst hr; simp at hrs; omega
      · intro honce
        have hq : qCountS (step (.On e cb mode t) w) r0.serial
            = qCountS w r0.serial := rfl
        have ht : tCountS (step (.On e cb mode t) w) r0.serial
            = tCountS w r0.serial := rfl
        rw [on_regCountS, hserne, hq, ht]
        simpa using h6 honce
  | Once e cb mode t =>
      refine ⟨Nat.lt_succ_of_lt h1, ?_, ?_, h4, h5, ?_⟩
      · rw [once_regCountS, hserne]; simpa using h2
      · intro r hr hrs
        simp only [step, Once, AddEventListener, List.mem_append,
          List.mem_singleton] at hr
        rcases hr with hr | hr
        · exact h3 r hr hrs
        · exfalso; subst hr; simp at hrs; omega
      · intro honce
        have hq : qCountS (step (.Once e cb mode t) w) r0.serial
            = qCountS w r0.serial := rfl
        have ht : tCountS (step (.Once e cb mode t) w) r0.serial
            = tCountS w r0.serial := rfl
        rw [once_regCountS, hserne, hq, ht]
        simpa using h6 honce
  | Off lid =>
      refine ⟨h1, Nat.le_trans (off_regCountS_le w lid r0.serial) h2, ?_,
        h4, h5, ?_⟩
      · intro r hr hrs
        simp only [step, Off, List.mem_filter] at hr
        exact h3 r hr.1 hrs
      · intro honce
        have hq : qCountS (step (.Off lid) w) r0.serial
            = qCountS w r0.serial := rfl
        have ht : tCountS (step (.Off lid) w) r0.serial
            = tCountS w r0.serial := rfl
        rw [hq, ht]
        have := off_regCountS_le w lid r0.serial
        have := h6 honce
        omega
  | Emit e args t =>
      refine ⟨h1, ?_, ?_, ?_, ?_, ?_⟩
      · rw [emit_regCountS]
        have hmono : w.em.m_registry.countP
            (fun r => r.serial == r0.serial && !(r.eventId == e && r.once))
            ≤ w.em.m_registry.countP (fun r => r.serial == r0.serial) :=
          List.countP_mono_left (fun r _ hr => Bool.and_elim_left hr)
        exact Nat.le_trans hmono h2
      · intro r hr hrs
        simp only [step, Emit, List.mem_filter] at hr
        exact h3 r hr.1 hrs
      · intro q hq hqs
        simp only [step, Emit, List.mem_append] at hq
        rcases hq with hq | hq
        · exact h4 q hq hqs
        · obtain ⟨r, hrmem, hrtl, hqeq⟩ := mem_filterMap_tl hq
          have hrreg := (List.mem_filter.1 hrmem).1
          have hrs : r.serial = r0.serial := by rw [hqeq] at hqs; exact hqs
          have hr0 : r = r0 := h3 r hrreg hrs
          subst hr0
          simp [hqeq]
      · intro i hi his
        simp only [step, Emit, List.mem_append] at hi
        rcases hi with hi | hi
        · exact h5 i hi his
        · obtain ⟨r, hrmem, hrntl, hse, hcb, honc⟩ := mem_filterMap_imm hi
          have hrreg := (List.mem_filter.1 hrmem).1
          have hrs : r.serial = r0.serial := by rw [← hse]; exact his
          have hr0 : r = r0 := h3 r hrreg hrs
          subst hr0
          refine ⟨by rw [hcb], by rw [honc], ?_⟩
          intro htl
          exact absurd htl hrntl
      · intro honce
        have hronce : ∀ r ∈ w.em.m_registry, (r.serial == r0.serial) = true →
            r.once = true := by
          intro r hr hrs
          have : r = r0 := h3 r hr (by simpa using hrs)
          rw [this, honce]
        have ereg : regCountS (step (.Emit e args t) w) r0.serial
            = w.em.m_registry.countP
                (fun r => r.serial == r0.serial && !(r.eventId == e)) := by
          rw [emit_regCountS]
          apply countP_congr_bool
          intro r hr
          cases hs : (r.serial == r0.serial)
          · simp
          · simp [hronce r hr hs]
        have eq' : w.em.m_registry.countP
              (fun r => (r.serial == r0.serial && isThreadLocal r) &&
                r.eventId == e)
            = w.em.m_registry.countP
              (fun r => (r.serial == r0.serial && r.eventId == e) &&
                isThreadLocal r) :=
          countP_congr_bool _ (fun r _ => bool_rearr1 _ _ _)
        have et' : w.em.m_registry.countP
              (fun r => (r.serial == r0.serial && !isThreadLocal r) &&
                r.eventId == e)
            = w.em.m_registry.countP
              (fun r => (r.serial == r0.serial && r.eventId == e) &&
                !isThreadLocal r) :=
          countP_congr_bool _ (fun r _ => bool_rearr1 _ _ _)
        have hsplit1 := countP_and_split w.em.m_registry
          (fun r => r.serial == r0.serial && r.eventId == e) isThreadLocal
        have hsplit2 := countP_and_split w.em.m_registry
          (fun r => r.serial == r0.serial) (fun r => r.eventId == e)
        have hbound := h6 honce
        have hrc : regCountS w r0.serial
            = w.em.m_registry.countP (fun r => r.serial == r0.serial) := rfl
        rw [emit_qCountS, emit_tCountS, ereg, eq', et']
        omega
  | ProcessEvents t =>
      refine ⟨h1, h2, h3, ?_, ?_, ?_⟩
      · intro q hq hqs
        simp only [step, ProcessEvents, List.mem_filter] at hq
        exact h4 q hq.1 hqs
      · intro i hi his
        simp only [step, ProcessEvents, List.mem_append] at hi
        rcases hi with hi | hi
        · exact h5 i hi his
        · obtain ⟨q, hqmem, hqi⟩ := List.mem_map.1 hi
          have hqfil := List.mem_filter.1 hqmem
          have hqown : q.owner = t := by simpa using hqfil.2
          have hqs : q.serial = r0.serial := by
            rw [← hqi] at his; exact his
          obtain ⟨hcb, hown, honc⟩ := h4 q hqfil.1 hqs
          refine ⟨by rw [← hqi]; exact hcb, by rw [← hqi]; exact honc, ?_⟩
          intro _
          constructor
          · rw [← hqi]
            simp [drainInvocation, ← hown, hqown]
          · rw [← hqi]
            rfl
      · intro honce
        have hreg : regCountS (step (.ProcessEvents t) w) r0.serial
            = regCountS w r0.serial := rfl
        have hsplit := countP_and_split w.queues
          (fun q => q.serial == r0.serial) (fun q => q.owner == t)
        have hbound := h6 honce
        have hrc2 : qCountS w r0.serial
            = w.queues.countP (fun q => q.serial == r0.serial) := rfl
        rw [hreg, pe_qCountS, pe_tCountS]
        omega

/-- The tracking invariant is preserved by whole runs. -/
theorem tracks_run (r0 : ListenerRecord) (ops : List Op) (w : World)
    (h : TracksRecord r0 w) : TracksRecord r0 (run ops w) := by
  induction ops generalizing w with
  | nil => exact h
  | cons op ops ih => exact ih _ (tracks_step r0 op w h)

/-- The record that AddEventListener appends to the registry. -/
def newRecord (e cb : Nat) (b : Bool) (mode : EventType) (t : Nat)
    (s : EventEmitter) : ListenerRecord :=
  { serial := s.nextSerial, listenerId := (s.m_lastRawListenerId + 1) % uintMod,
    eventId := e, once := b, eventType := mode, threadId := t, cb := cb }

theorem countS_zero_of_bound {l : List ListenerRecord} {n : Nat}
    (h : ∀ r ∈ l, r.serial < n) :
    l.countP (fun r => r.serial == n) = 0 :=
  List.countP_eq_zero.2 (fun r hr => by simp [Nat.ne_of_lt (h r hr)])

theorem tracks_create_add (w : World) (hSB : SerialBound w) (e cb : Nat)
    (b : Bool) (mode : EventType) (t : Nat) :
    TracksRecord (newRecord e cb b mode t w.em)
      { w with em := (AddEventListener e cb b mode t w.em).1 } := by
  obtain ⟨hr, hq, ht⟩ := hSB
  have hreg0 : w.em.m_registry.countP
      (fun r => r.serial == w.em.nextSerial) = 0 := countS_zero_of_bound hr
  have hq0 : w.queues.countP (fun q => q.serial == w.em.nextSerial) = 0 :=
    List.countP_eq_zero.2 (fun q hqm => by simp [Nat.ne_of_lt (hq q hqm)])
  have ht0 : w.trace.countP (fun i => i.serial == w.em.nextSerial) = 0 :=
    List.countP_eq_zero.2 (fun i him => by simp [Nat.ne_of_lt (ht i him)])
  refine ⟨Nat.lt_succ_self _, ?_, ?_, ?_, ?_, ?_⟩
  · show (w.em.m_registry ++ [newRecord e cb b mode t w.em]).countP
        (fun r => r.serial == (newRecord e cb b mode t w.em).serial) ≤ 1
    rw [List.countP_append]
    simp [newRecord, hreg0, List.countP_singleton]
  · intro r hrm hrs
    simp only [AddEventListener, List.mem_append, List.mem_singleton] at hrm
    rcases hrm with hrm | hrm
    · exact absurd hrs (Nat.ne_of_lt (hr r hrm))
    · rw [hrm]; rfl
  · intro q hqm hqs
    exact absurd hqs (Nat.ne_of_lt (hq q hqm))
  · intro i him his
    exact absurd his (Nat.ne_of_lt (ht i him))
  · intro _
    show (w.em.m_registry ++ [newRecord e cb b mode t w.em]).countP
          (fun r => r.serial == (newRecord e cb b mode t w.em).serial)
        + w.queues.countP
            (fun q => q.serial == (newRecord e cb b mode t w.em).serial)
        + w.trace.countP
            (fun i => i.serial == (newRecord e cb b mode t w.em).serial) ≤ 1
    rw [List.countP_append]
    simp [newRecord, hreg0, hq0, ht0, List.countP_singleton]

theorem tracks_create_On (w : World) (hSB : SerialBound w) (e cb : Nat)
    (mode : EventType) (t : Nat) :
    TracksRecord (newRecord e cb false mode t w.em)
      (step (.On e cb mode t) w) :=
  tracks_create_add w hSB e cb false mode t

theorem tracks_create_Once (w : World) (hSB : SerialBound w) (e cb : Nat)
    (mode : EventType) (t : Nat) :
    TracksRecord (newRecord e cb true mode t w.em)
      (step (.Once e cb mode t) w) :=
  tracks_create_add w hSB e cb true mode t

/-- Emit never invokes a ThreadLocal listener directly: the trace count of a
tracked ThreadLocal record is unchanged by any Emit call. -/
theorem tl_emit_tCountS (r0 : ListenerRecord) (w : World)
    (h : TracksRecord r0 w) (htl : r0.eventType = .ThreadLocal)
    (e : Nat) (args : List Nat) (t : Nat) :
    tCountS (step (.Emit e args t) w) r0.serial = tCountS w r0.serial := by
  rw [emit_tCountS]
  have : w.em.m_registry.countP
      (fun r => (r.serial == r0.serial && !isThreadLocal r) &&
        r.eventId == e) = 0 := by
    apply List.countP_eq_zero.2
    intro r hrm
    cases hs : (r.serial == r0.serial)
    · simp [hs]
    · have : r = r0 := h.reg_eq r hrm (by simpa using hs)
      subst this
      simp [hs, isThreadLocal, htl]
  omega

/-- A ProcessEvents call by any thread other than the registering thread of a
tracked record does not invoke it. -/
theorem other_pe_tCountS (r0 : ListenerRecord) (w : World)
    (h : TracksRecord r0 w) (t : Nat) (hne : t ≠ r0.threadId) :
    tCountS (step (.ProcessEvents t) w) r0.serial = tCountS w r0.serial := by
  rw [pe_tCountS]
  have : w.queues.countP
      (fun q => q.serial == r0.serial && q.owner == t) = 0 := by
    apply List.countP_eq_zero.2
    intro q hqm
    cases hs : (q.serial == r0.serial)
    · simp [hs]
    · obtain ⟨_, hown, _⟩ := h.queue_shape q hqm (by simpa using hs)
      simp [hs, hown, Ne.symm hne]
  omega

/-- Without a ProcessEvents call by the registering thread, a ThreadLocal
listener is never invoked: its trace count stays constant. -/
theorem tl_tCountS_const (r0 : ListenerRecord)
    (htl : r0.eventType = .ThreadLocal) (ops : List Op) (w : World)
    (h : TracksRecord r0 w)
    (hops : ∀ op ∈ ops, op ≠ Op.ProcessEvents r0.threadId) :
    tCountS (run ops w) r0.serial = tCountS w r0.serial := by
  induction ops generalizing w with
  | nil => rfl
  | cons op ops ih =>
      have hstep : tCountS (step op w) r0.serial = tCountS w r0.serial := by
        cases op with
        | On e cb mode t => rfl
        | Once e cb mode t => rfl
        | Off lid => rfl
        | Emit e args t => exact tl_emit_tCountS r0 w h htl e args t
        | ProcessEvents t =>
            have hne : t ≠ r0.threadId := by
              intro hcontra
              exact hops _ (List.mem_cons_self _ _) (by rw [hcontra])
            exact other_pe_tCountS r0 w h t hne
      rw [run_cons, ih (step op w) (tracks_step r0 op w h)
        (fun op' hop' => hops op' (List.mem_cons_of_mem _ hop')), hstep]

/-- The registry records produced by a sequence of Immediate-mode On calls
for the callbacks cbs under event e from thread t, starting from serial
counter ser and raw-id counter ctr. -/
def onRecords (e t : Nat) : List Nat → Nat → Nat → List ListenerRecord
  | [], _, _ => []
  | cb :: cbs, ser, ctr =>
      { serial := ser, listenerId := (ctr + 1) % uintMod, eventId := e,
        once := false, eventType := .Immediate, threadId := t, cb := cb }
        :: onRecords e t cbs (ser + 1) ((ctr + 1) % uintMod)

theorem run_ons_registry (e t : Nat) :
    ∀ (cbs : List Nat) (w : World),
    (run (cbs.map (fun cb => Op.On e cb .Immediate t)) w).em.m_registry
      = w.em.m_registry
        ++ onRecords e t cbs w.em.nextSerial w.em.m_lastRawListenerId
  | [], w => by simp [run, onRecords]
  | cb :: cbs, w => by
      rw [List.map_cons, run_cons,
        run_ons_registry e t cbs (step (Op.On e cb .Immediate t) w)]
      simp [step, On, AddEventListener, onRecords, List.append_assoc]

theorem run_ons_queues (e t : Nat) :
    ∀ (cbs : List Nat) (w : World),
    (run (cbs.map (fun cb => Op.On e cb .Immediate t)) w).queues = w.queues
  | [], w => rfl
  | cb :: cbs, w => by
      rw [List.map_cons, run_cons,
        run_ons_queues e t cbs (step (Op.On e cb .Immediate t) w)]
      rfl

theorem run_ons_trace (e t : Nat) :
    ∀ (cbs : List Nat) (w : World),
    (run (cbs.map (fun cb => Op.On e cb .Immediate t)) w).trace = w.trace
  | [], w => rfl
  | cb :: cbs, w => by
      rw [List.map_cons, run_cons,
        run_ons_trace e t cbs (step (Op.On e cb .Immediate t) w)]
      rfl

theorem onRecords_emit_proj (e t t' : Nat) (args : List Nat) :
    ∀ (cbs : List Nat) (ser ctr : Nat),
    (((onRecords e t cbs ser ctr).filter
        (fun r => r.eventId == e)).filterMap
          (immediateInvocation t' args)).map
      (fun i => (i.cb, i.thread, i.args))
      = cbs.map (fun cb => (cb, some t', args))
  | [], _, _ => rfl
  | cb :: cbs, ser, ctr => by
      rw [onRecords]
      simp only [List.filter_cons]
      simp [immediateInvocation,
        onRecords_emit_proj e t t' args cbs (ser + 1) ((ctr + 1) % uintMod)]

/-- The registry never holds two records with the same serial. -/
def RegNodup (w : World) : Prop :=
  (w.em.m_registry.map (fun r => r.serial)).Nodup

theorem regNodup_init : RegNodup init := by
  simp [RegNodup, init]

theorem regNodup_step (op : Op) (w : World) (hSB : SerialBound w)
    (h : RegNodup w) : RegNodup (step op w) := by
  cases op with
  | On e cb mode t =>
      unfold RegNodup at h ⊢
      simp only [step, On, AddEventListener, List.map_append, List.map_cons,
        List.map_nil, List.nodup_append]
      refine ⟨h, List.nodup_singleton _, ?_⟩
      intro x hx hx'
      simp only [List.mem_map] at hx
      obtain ⟨r, hrm, hrs⟩ := hx
      simp only [List.mem_singleton] at hx'
      rw [hx'] at hrs
      exact absurd hrs (Nat.ne_of_lt (hSB.1 r hrm))
  | Once e cb mode t =>
      unfold RegNodup at h ⊢
      simp only [step, Once, AddEventListener, List.map_append, List.map_cons,
        List.map_nil, List.nodup_append]
      refine ⟨h, List.nodup_singleton _, ?_⟩
      intro x hx hx'
      simp only [List.mem_map] at hx
      obtain ⟨r, hrm, hrs⟩ := hx
      simp only [List.mem_singleton] at hx'
      rw [hx'] at hrs
      exact absurd hrs (Nat.ne_of_lt (hSB.1 r hrm))
  | Off lid =>
      exact List.Nodup.sublist
        (List.Sublist.map _ (List.filter_sublist _)) h
  | Emit e args t =>
      exact List.Nodup.sublist
        (List.Sublist.map _ (List.filter_sublist _)) h
  | ProcessEvents t => exact h

/-- Reachability invariant combining the serial bound and registry nodup. -/
def WF (w : World) : Prop := SerialBound w ∧ RegNodup w

theorem wf_init : WF init := ⟨serialBound_init, regNodup_init⟩

theorem wf_step (op : Op) (w : World) (h : WF w) : WF (step op w) :=
  ⟨serialBound_step op w h.1, regNodup_step op w h.1 h.2⟩

theorem wf_run (ops : List Op) (w : World) (h : WF w) : WF (run ops w) := by
  induction ops generalizing w with
  | nil => exact h
  | cons op ops ih => exact ih _ (wf_step op w h)

/-- After Off removed serial s, no registry record carries s and s stays
below the serial counter (so s is never re-issued). -/
def OffGone (s : Nat) (w : World) : Prop :=
  s < w.em.nextSerial ∧ ∀ r ∈ w.em.m_registry, r.serial ≠ s

theorem offGone_step (s : Nat) (op : Op) (w : World) (h : OffGone s w) :
    OffGone s (step op w) := by
  obtain ⟨hlt, hgone⟩ := h
  cases op with
  | On e cb mode t =>
      refine ⟨Nat.lt_succ_of_lt hlt, ?_⟩
      intro r hr
      simp only [step, On, AddEventListener, List.mem_append,
        List.mem_singleton] at hr
      rcases hr with hr | hr
      · exact hgone r hr
      · rw [hr]; exact Nat.ne_of_gt hlt
  | Once e cb mode t =>
      refine ⟨Nat.lt_succ_of_lt hlt, ?_⟩
      intro r hr
      simp only [step, Once, AddEventListener, List.mem_append,
        List.mem_singleton] at hr
      rcases hr with hr | hr
      · exact hgone r hr
      · rw [hr]; exact Nat.ne_of_gt hlt
  | Off lid =>
      refine ⟨hlt, ?_⟩
      intro r hr
      simp only [step, Off, List.mem_filter] at hr
      exact hgone r hr.1
  | Emit e args t =>
      refine ⟨hlt, ?_⟩
      intro r hr
      simp only [step, Emit, List.mem_filter] at hr
      exact hgone r hr.1
  | ProcessEvents t => exact ⟨hlt, hgone⟩

/-- Once serial s is gone from the registry, no step adds a direct (Emit-
performed) invocation of s. -/
theorem gone_directCountS_step (s : Nat) (op : Op) (w : World)
    (h : OffGone s w) : directCountS (step op w) s = directCountS w s := by
  cases op with
  | On e cb mode t => rfl
  | Once e cb mode t => rfl
  | Off lid => rfl
  | Emit e args t =>
      rw [emit_directCountS]
      have : w.em.m_registry.countP
          (fun r => (r.serial == s && !isThreadLocal r) && r.eventId == e)
          = 0 := by
        apply List.countP_eq_zero.2
        intro r hrm
        simp [h.2 r hrm]
      omega
  | ProcessEvents t => exact pe_directCountS w t s

/-- Once serial s is gone from the registry, the number of drain invocations
of s plus the number of still-pending entries for s is conserved: drains only
consume entries enqueued before, and no new entry is ever enqueued. -/
theorem gone_drainq_step (s : Nat) (op : Op) (w : World) (h : OffGone s w) :
    drainCountS (step op w) s + qCountS (step op w) s
      = drainCountS w s + qCountS w s := by
  cases op with
  | On e cb mode t => rfl
  | Once e cb mode t => rfl
  | Off lid => rfl
  | Emit e args t =>
      rw [emit_drainCountS, emit_qCountS]
      have : w.em.m_registry.countP
          (fun r => (r.serial == s && isThreadLocal r) && r.eventId == e)
          = 0 := by
        apply List.countP_eq_zero.2
        intro r hrm
        simp [h.2 r hrm]
      omega
  | ProcessEvents t =>
      rw [pe_drainCountS, pe_qCountS]
      have hsplit := countP_and_split w.queues
        (fun q => q.serial == s) (fun q => q.owner == t)
      have hq : qCountS w s = w.queues.countP (fun q => q.serial == s) := rfl
      omega

theorem gone_directCountS_run (s : Nat) (ops : List Op) (w : World)
    (h : OffGone s w) : directCountS (run ops w) s = directCountS w s := by
  induction ops generalizing w with
  | nil => rfl
  | cons op ops ih =>
      rw [run_cons, ih (step op w) (offGone_step s op w h),
        gone_directCountS_step s op w h]

theorem gone_drainq_run (s : Nat) (ops : List Op) (w : World)
    (h : OffGone s w) :
    drainCountS (run ops w) s + qCountS (run ops w) s
      = drainCountS w s + qCountS w s := by
  induction ops generalizing w with
  | nil => rfl
  | cons op ops ih =>
      rw [run_cons, ih (step op w) (offGone_step s op w h),
        gone_drainq_step s op w h]

theorem offGone_run (s : Nat) (ops : List Op) (w : World) (h : OffGone s w) :
    OffGone s (run ops w) := by
  induction ops generalizing w with
  | nil => exact h
  | cons op ops ih => exact ih _ (offGone_step s op w h)

/-- Off establishes OffGone for the serial of the removed record. -/
theorem offGone_establish (w : World) (hWF : WF w) (lid s : Nat)
    (hex : ∃ r ∈ w.em.m_registry, r.listenerId = lid ∧ r.serial = s) :
    OffGone s (step (.Off lid) w) := by
  obtain ⟨r, hrm, hrl, hrs⟩ := hex
  refine ⟨by rw [← hrs]; exact hWF.1.1 r hrm, ?_⟩
  intro r' hr' hrs'
  simp only [step, Off, List.mem_filter] at hr'
  obtain ⟨hr'm, hr'l⟩ := hr'
  have : r' = r := List.inj_on_of_nodup_map hWF.2 hr'm hrm (by rw [hrs', hrs])
  rw [this] at hr'l
  simp [hrl] at hr'l

/-- Bool test for the registering calls of the API (On and Once). -/
def isRegistration (op : Op) : Bool :=
  match op with
  | .On .. => true
  | .Once .. => true
  | _ => false

theorem uintMod_pos : 0 < uintMod := by
  rw [uintMod]; exact Nat.pos_pow_of_pos 32 (by omega)

/-- After n registering calls, the raw listener-id counter holds its start
value plus n, reduced modulo 2 ^ 32 (unsigned-int arithmetic). -/
theorem counter_run_regs :
    ∀ (ops : List Op) (w : World),
    (∀ op ∈ ops, isRegistration op = true) →
    w.em.m_lastRawListenerId < uintMod →
    (run ops w).em.m_lastRawListenerId
      = (w.em.m_lastRawListenerId + ops.length) % uintMod
  | [], w, _, hlt => by
      simp [run, Nat.mod_eq_of_lt hlt]
  | op :: ops, w, hreg, hlt => by
      have hco : ∀ (w' : World),
          w'.em.m_lastRawListenerId
              = (w.em.m_lastRawListenerId + 1) % uintMod →
          (run ops w').em.m_lastRawListenerId
            = (w.em.m_lastRawListenerId + (ops.length + 1)) % uintMod := by
        intro w' hw'
        rw [counter_run_regs ops w'
          (fun o ho => hreg o (List.mem_cons_of_mem _ ho))
          (by rw [hw']; exact Nat.mod_lt _ uintMod_pos), hw',
          Nat.mod_add_mod]
        congr 1
        omega
      rw [run_cons]
      cases op with
      | On e cb mode t =>
          simpa using hco (step (.On e cb mode t) w) rfl
      | Once e cb mode t =>
          simpa using hco (step (.Once e cb mode t) w) rfl
      | Off lid => simp [isRegistration] at hreg
      | Emit e args t => simp [isRegistration] at hreg
      | ProcessEvents t => simp [isRegistration] at hreg

/-- The raw ListenerId returned by the k-th call of a sequence of
registering calls performed on a fresh emitter: AddEventListener returns the
counter value after the increment, so this is the counter after k calls. -/
def issuedId (ops : List Op) (k : Nat) : Nat :=
  (run (ops.take k) init).em.m_lastRawListenerId

theorem issuedId_eq (ops : List Op)
    (hreg : ∀ op ∈ ops, isRegistration op = true) (k : Nat)
    (hk : k ≤ ops.length) : issuedId ops k = k % uintMod := by
  unfold issuedId
  rw [counter_run_regs (ops.take k) init
    (fun op hop => hreg op (List.take_subset k ops hop))
    (by simp [init]; exact uintMod_pos)]
  simp [init, List.length_take, Nat.min_eq_left hk]

/-- A world holding many independent EventEmitter instances (indexed by a
Nat) over the shared cross-thread queues and trace. -/
structure MWorld where
  em : Nat → EventEmitter
  queues : List PendingInvocation
  trace : List Invocation

/-- Applying one API call to emitter p.1 of a multi-emitter world. -/
def mstep (p : Nat × Op) (w : MWorld) : MWorld :=
  let w1 := step p.2 { em := w.em p.1, queues := w.queues, trace := w.trace }
  { em := Function.update w.em p.1 w1.em
    queues := w1.queues, trace := w1.trace }

/-- Running a sequence of addressed API calls on a multi-emitter world. -/
def mrun (ops : List (Nat × Op)) (w : MWorld) : MWorld :=
  ops.foldl (fun w p => mstep p w) w

/-- A multi-emitter world of fresh emitters. -/
def minit : MWorld := { em := fun _ => init.em, queues := [], trace := [] }

/-- C1: for every EventEmitter, every EventId e and every sequence of On
registrations of distinct Immediate-mode callbacks under e, a subsequent
Emit(e, args) from thread t invokes each of those callbacks exactly once,
synchronously on the calling thread, with the supplied arguments, in the
order in which they were registered: the invocation trace of the Emit is
exactly the registered callbacks, in registration order, each tagged with
the calling thread and the arguments. -/
theorem C1_emit_immediate_in_order (e : Nat) (cbs : List Nat) (t : Nat)
    (args : List Nat) (t' : Nat) (hnd : cbs.Nodup) :
    ((step (.Emit e args t')
        (run (cbs.map (fun cb => Op.On e cb .Immediate t)) init)).trace).map
      (fun i => (i.cb, i.thread, i.args))
      = cbs.map (fun cb => (cb, some t', args)) := by
  have hreg := run_ons_registry e t cbs init
  have htr := run_ons_trace e t cbs init
  have hstep : (step (.Emit e args t')
      (run (cbs.map (fun cb => Op.On e cb .Immediate t)) init)).trace
      = (run (cbs.map (fun cb => Op.On e cb .Immediate t)) init).trace
        ++ (((run (cbs.map (fun cb => Op.On e cb .Immediate t))
              init).em.m_registry.filter
            (fun r => r.eventId == e)).filterMap
          (immediateInvocation t' args)) := rfl
  rw [hstep, htr, hreg]
  have hinit : init.trace = [] := rfl
  have hinitreg : init.em.m_registry = [] := rfl
  rw [hinit, hinitreg]
  simp only [List.nil_append, List.map_append]
  exact onRecords_emit_proj e t t' args cbs init.em.nextSerial
    init.em.m_lastRawListenerId

theorem C1_witness :
    [7, 9].Nodup ∧
    ((step (.Emit 1 [3] 5)
        (run ([7, 9].map (fun cb => Op.On 1 cb .Immediate 0)) init)).trace).map
      (fun i => (i.cb, i.thread, i.args))
      = [7, 9].map (fun cb => (cb, some 5, [3])) :=
  ⟨by decide, C1_emit_immediate_in_order 1 [7, 9] 0 [3] 5 (by decide)⟩

/-- C2: a listener registered via Once fires at most once: whatever calls
are made before the Once registration (ops₀) and after it (ops₁, any mix of
Emit, ProcessEvents and other calls), the number of invocations of the
Once-registered record never exceeds one. -/
theorem C2_once_fires_at_most_once (ops₀ : List Op) (e cb : Nat)
    (mode : EventType) (t : Nat) (ops₁ : List Op) :
    tCountS (run ops₁ (step (.Once e cb mode t) (run ops₀ init)))
      (run ops₀ init).em.nextSerial ≤ 1 := by
  have hSB := serialBound_run ops₀ init serialBound_init
  have h := tracks_run _ ops₁ _
    (tracks_create_Once (run ops₀ init) hSB e cb mode t)
  have hb := h.once_bound rfl
  have hser : (newRecord e cb true mode t (run ops₀ init).em).serial
      = (run ops₀ init).em.nextSerial := rfl
  rw [← hser]
  omega

/-- C5: for a once-flagged ThreadLocal listener, Emit removes its record
from the registry at the moment its invocation is enqueued, so at any time
at most one queued invocation for that listener exists: after any further
calls ops₁, an Emit of its event leaves no registry record for it and turns
each remaining registry occurrence into exactly one queue entry, and the
number of queued entries for it never exceeds one. -/
theorem C5_threadlocal_once_enqueue_removes (ops₀ : List Op) (e cb B : Nat)
    (ops₁ : List Op) (args : List Nat) (t : Nat) :
    regCountS (step (.Emit e args t)
        (run ops₁ (step (.Once e cb .ThreadLocal B) (run ops₀ init))))
      (run ops₀ init).em.nextSerial = 0
  ∧ qCountS (step (.Emit e args t)
        (run ops₁ (step (.Once e cb .ThreadLocal B) (run ops₀ init))))
      (run ops₀ init).em.nextSerial
      = qCountS (run ops₁ (step (.Once e cb .ThreadLocal B) (run ops₀ init)))
          (run ops₀ init).em.nextSerial
        + regCountS
            (run ops₁ (step (.Once e cb .ThreadLocal B) (run ops₀ init)))
            (run ops₀ init).em.nextSerial
  ∧ qCountS (run ops₁ (step (.Once e cb .ThreadLocal B) (run ops₀ init)))
      (run ops₀ init).em.nextSerial ≤ 1 := by
  have hSB := serialBound_run ops₀ init serialBound_init
  have h := tracks_run _ ops₁ _
    (tracks_create_Once (run ops₀ init) hSB e cb .ThreadLocal B)
  set w₀ := run ops₀ init with hw₀
  set r0 := newRecord e cb true .ThreadLocal B w₀.em with hr0
  set w₂ := run ops₁ (step (.Once e cb .ThreadLocal B) w₀) with hw₂
  have hser : r0.serial = w₀.em.nextSerial := rfl
  rw [← hser]
  refine ⟨?_, ?_, ?_⟩
  · rw [emit_regCountS]
    apply List.countP_eq_zero.2
    intro r hrm
    cases hs : (r.serial == r0.serial)
    · simp [hs]
    · have : r = r0 := h.reg_eq r hrm (by simpa using hs)
      subst this
      simp [hs, hr0, newRecord]
  · rw [emit_qCountS]
    have : w₂.em.m_registry.countP
        (fun r => (r.serial == r0.serial && isThreadLocal r) &&
          r.eventId == e)
        = w₂.em.m_registry.countP (fun r => r.serial == r0.serial) := by
      apply countP_congr_bool
      intro r hrm
      cases hs : (r.serial == r0.serial)
      · simp [hs]
      · have : r = r0 := h.reg_eq r hrm (by simpa using hs)
        subst this
        simp [hs, hr0, newRecord, isThreadLocal]
    rw [this]
    rfl
  · have hb := h.once_bound rfl
    omega

/-- C6: for every ListenerId that does not identify a currently registered
record, Off is a no-op leaving the whole world unchanged, and calling Off
twice with the same id always yields the same world as calling it once. -/
theorem C6_off_unknown_is_noop (w : World) (lid : Nat) :
    ((∀ r ∈ w.em.m_registry, r.listenerId ≠ lid) → step (.Off lid) w = w)
  ∧ step (.Off lid) (step (.Off lid) w) = step (.Off lid) w := by
  constructor
  · intro h
    have hfil : w.em.m_registry.filter (fun r => r.listenerId != lid)
        = w.em.m_registry :=
      List.filter_eq_self.2 (fun r hr => by simp [h r hr])
    show { w with em :=
      { w.em with m_registry :=
          w.em.m_registry.filter (fun r => r.listenerId != lid) } } = w
    rw [hfil]
  · have hfil : (w.em.m_registry.filter
        (fun r => r.listenerId != lid)).filter
          (fun r => r.listenerId != lid)
        = w.em.m_registry.filter (fun r => r.listenerId != lid) := by
      rw [List.filter_filter]
      exact List.filter_congr (fun r _ => Bool.and_self _)
    show { w with em :=
      { w.em with m_registry :=
          ((w.em.m_registry.filter (fun r => r.listenerId != lid)).filter
            (fun r => r.listenerId != lid)) } }
      = { w with em :=
      { w.em with m_registry :=
          w.em.m_registry.filter (fun r => r.listenerId != lid) } }
    rw [hfil]

theorem C6_witness : step (.Off 5) init = init :=
  (C6_off_unknown_is_noop init 5).1 (by decide)

/-- C3: after Off(id) removed a registered record, no subsequent API call
sequence ever re-registers that record, no subsequent call makes Emit invoke
its callback directly (Immediate or Async count stays frozen), and drains
can only consume invocations that were already pending at the time of the
Off: the drained-plus-pending total for the record is conserved, so no
subsequent Emit ever produces a new invocation of it in any delivery mode. -/
theorem C3_off_never_fires_again (ops₁ : List Op) (lid s : Nat)
    (hex : ∃ r ∈ (run ops₁ init).em.m_registry,
      r.listenerId = lid ∧ r.serial = s)
    (ops₂ : List Op) :
    (∀ r ∈ (run ops₂ (step (.Off lid) (run ops₁ init))).em.m_registry,
      r.serial ≠ s)
  ∧ directCountS (run ops₂ (step (.Off lid) (run ops₁ init))) s
      = directCountS (step (.Off lid) (run ops₁ init)) s
  ∧ drainCountS (run ops₂ (step (.Off lid) (run ops₁ init))) s
      + qCountS (run ops₂ (step (.Off lid) (run ops₁ init))) s
      = drainCountS (step (.Off lid) (run ops₁ init)) s
        + qCountS (step (.Off lid) (run ops₁ init)) s := by
  have hWF := wf_run ops₁ init wf_init
  have hgone := offGone_establish (run ops₁ init) hWF lid s hex
  exact ⟨(offGone_run s ops₂ _ hgone).2,
    gone_directCountS_run s ops₂ _ hgone,
    gone_drainq_run s ops₂ _ hgone⟩

theorem C3_witness :
    (∀ r ∈ (run [Op.Emit 0 [] 0]
        (step (.Off 1) (run [Op.On 0 7 .Immediate 0] init))).em.m_registry,
      r.serial ≠ 0)
  ∧ directCountS (run [Op.Emit 0 [] 0]
        (step (.Off 1) (run [Op.On 0 7 .Immediate 0] init))) 0
      = directCountS (step (.Off 1) (run [Op.On 0 7 .Immediate 0] init)) 0
  ∧ drainCountS (run [Op.Emit 0 [] 0]
        (step (.Off 1) (run [Op.On 0 7 .Immediate 0] init))) 0
      + qCountS (run [Op.Emit 0 [] 0]
          (step (.Off 1) (run [Op.On 0 7 .Immediate 0] init))) 0
      = drainCountS (step (.Off 1) (run [Op.On 0 7 .Immediate 0] init)) 0
        + qCountS (step (.Off 1) (run [Op.On 0 7 .Immediate 0] init)) 0 :=
  C3_off_never_fires_again [Op.On 0 7 .Immediate 0] 1 0
    (by decide) [Op.Emit 0 [] 0]

/-- C4: a ThreadLocal listener registered via On from thread B is not
invoked by an Emit performed from a different thread A (its invocation
count is unchanged by the Emit, so nothing runs on A); it stays uninvoked
under any further calls that do not include a ProcessEvents by B; every
invocation it ever receives runs on thread B and comes from a ProcessEvents
drain; and a ProcessEvents by B runs exactly its pending queued invocations
in the order they were enqueued. -/
theorem C4_threadlocal_deferred_to_owner (ops₀ : List Op) (e cb B : Nat)
    (ops₁ : List Op) (A : Nat) (args : List Nat) (ops₂ : List Op)
    (w₀ w₂ w₃ w₄ : World) (s : Nat)
    (hAB : A ≠ B)
    (hw₀ : w₀ = run ops₀ init)
    (hs : s = w₀.em.nextSerial)
    (hw₂ : w₂ = run ops₁ (step (.On e cb .ThreadLocal B) w₀))
    (hw₃ : w₃ = step (.Emit e args A) w₂)
    (hw₄ : w₄ = run ops₂ w₃)
    (hops₂ : ∀ op ∈ ops₂, op ≠ Op.ProcessEvents B) :
    tCountS w₃ s = tCountS w₂ s
  ∧ tCountS w₄ s = tCountS w₃ s
  ∧ (∀ i ∈ w₄.trace, i.serial = s →
      i.thread = some B ∧ i.fromDrain = true)
  ∧ (step (.ProcessEvents B) w₄).trace.filter (fun i => i.serial == s)
      = w₄.trace.filter (fun i => i.serial == s)
        ++ (w₄.queues.filter (fun q => q.serial == s)).map
            (drainInvocation B) := by
  subst hw₀ hw₂ hw₃ hw₄ hs
  set w₀ := run ops₀ init with hw₀
  have hSB := serialBound_run ops₀ init serialBound_init
  set r0 := newRecord e cb false .ThreadLocal B w₀.em with hr0
  have htl : r0.eventType = .ThreadLocal := rfl
  have hser : r0.serial = w₀.em.nextSerial := rfl
  have hB : r0.threadId = B := rfl
  have h₂ : TracksRecord r0
      (run ops₁ (step (.On e cb .ThreadLocal B) w₀)) :=
    tracks_run _ ops₁ _ (tracks_create_On w₀ hSB e cb .ThreadLocal B)
  set w₂ := run ops₁ (step (.On e cb .ThreadLocal B) w₀) with hw₂
  have h₃ : TracksRecord r0 (step (.Emit e args A) w₂) :=
    tracks_step r0 _ _ h₂
  set w₃ := step (.Emit e args A) w₂ with hw₃
  have h₄ : TracksRecord r0 (run ops₂ w₃) := tracks_run r0 ops₂ w₃ h₃
  set w₄ := run ops₂ w₃ with hw₄
  rw [← hser]
  refine ⟨?_, ?_, ?_, ?_⟩
  · exact tl_emit_tCountS r0 w₂ h₂ htl e args A
  · exact tl_tCountS_const r0 htl ops₂ w₃ h₃ hops₂
  · intro i hi his
    exact (h₄.trace_shape i hi his).2.2 htl
  · have hpe : (step (.ProcessEvents B) w₄).trace
        = w₄.trace ++ (w₄.queues.filter (fun q => q.owner == B)).map
            (drainInvocation B) := rfl
    rw [hpe, List.filter_append]
    congr 1
    rw [List.filter_map]
    have hcomp : ((fun i : Invocation => i.serial == r0.serial) ∘
        drainInvocation B) = (fun q : PendingInvocation =>
          q.serial == r0.serial) := rfl
    rw [hcomp, List.filter_filter]
    congr 1
    apply List.filter_congr
    intro q hq
    cases hqs : (q.serial == r0.serial)
    · simp [hqs]
    · obtain ⟨_, hown, _⟩ := h₄.queue_shape q hq (by simpa using hqs)
      simp [hqs, hown, hB]

theorem C4_witness :
    let w₀ := run [] init
    let w₂ := run [] (step (.On 1 7 .ThreadLocal 0) w₀)
    let w₃ := step (.Emit 1 [4] 2) w₂
    let w₄ := run [] w₃
    tCountS w₃ 0 = tCountS w₂ 0
  ∧ tCountS w₄ 0 = tCountS w₃ 0
  ∧ (∀ i ∈ w₄.trace, i.serial = 0 →
      i.thread = some 0 ∧ i.fromDrain = true)
  ∧ (step (.ProcessEvents 0) w₄).trace.filter (fun i => i.serial == 0)
      = w₄.trace.filter (fun i => i.serial == 0)
        ++ (w₄.queues.filter (fun q => q.serial == 0)).map
            (drainInvocation 0) :=
  C4_threadlocal_deferred_to_owner [] 1 7 0 [] 2 [4] []
    (run [] init) (run [] (step (.On 1 7 .ThreadLocal 0) (run [] init)))
    (step (.Emit 1 [4] 2)
      (run [] (step (.On 1 7 .ThreadLocal 0) (run [] init))))
    (run [] (step (.Emit 1 [4] 2)
      (run [] (step (.On 1 7 .ThreadLocal 0) (run [] init))))) 0
    (by decide) rfl rfl rfl rfl rfl (by decide)

theorem one_lt_uintMod : 1 < uintMod := by
  rw [uintMod]; norm_num

/-- C7 counterexample: the claim that every registration returns a
ListenerId strictly greater than all previously issued ids fails at the
2 ^ 32-th registration on one emitter: the counter is an unsigned int, so
that call returns id 0 while the first call returned id 1. -/
theorem C7_counterexample_wrap :
    issuedId (List.replicate uintMod (Op.On 0 0 .Immediate 0)) 1 = 1
  ∧ issuedId (List.replicate uintMod (Op.On 0 0 .Immediate 0)) uintMod = 0
  ∧ ¬ issuedId (List.replicate uintMod (Op.On 0 0 .Immediate 0)) 1
      < issuedId (List.replicate uintMod (Op.On 0 0 .Immediate 0)) uintMod := by
  have hreg : ∀ op ∈ List.replicate uintMod (Op.On 0 0 .Immediate 0),
      isRegistration op = true := by
    intro op hop
    rw [List.eq_of_mem_replicate hop]
    rfl
  have hlen : (List.replicate uintMod (Op.On 0 0 .Immediate 0)).length
      = uintMod := List.length_replicate _ _
  have h1 : issuedId (List.replicate uintMod (Op.On 0 0 .Immediate 0)) 1
      = 1 := by
    rw [issuedId_eq _ hreg 1 (by rw [hlen]; exact Nat.le_of_lt one_lt_uintMod)]
    exact Nat.mod_eq_of_lt one_lt_uintMod
  have hM : issuedId (List.replicate uintMod (Op.On 0 0 .Immediate 0))
      uintMod = 0 := by
    rw [issuedId_eq _ hreg uintMod (le_of_eq hlen.symm)]
    exact Nat.mod_self _
  refine ⟨h1, hM, ?_⟩
  rw [h1, hM]
  omega

/-- C7 amended: every On or Once call on an emitter returns a fresh
ListenerId assigned from the single per-instance counter in unsigned-int
arithmetic; the ids are strictly increasing across the sequence of
registrations as long as fewer than 2 ^ 32 registrations have been made on
that emitter. -/
theorem C7_ids_increase_below_wrap (ops : List Op)
    (hreg : ∀ op ∈ ops, isRegistration op = true) (j k : Nat)
    (hj : 0 < j) (hjk : j < k) (hk : k ≤ ops.length) (hkM : k < uintMod) :
    issuedId ops j < issuedId ops k := by
  rw [issuedId_eq ops hreg j (Nat.le_of_lt (Nat.lt_of_lt_of_le hjk hk)),
    issuedId_eq ops hreg k hk,
    Nat.mod_eq_of_lt (Nat.lt_trans hjk hkM), Nat.mod_eq_of_lt hkM]
  exact hjk

theorem C7_witness :
    issuedId [Op.On 0 0 .Immediate 0, Op.Once 0 1 .Async 2] 1
      < issuedId [Op.On 0 0 .Immediate 0, Op.Once 0 1 .Async 2] 2 :=
  C7_ids_increase_below_wrap [Op.On 0 0 .Immediate 0, Op.Once 0 1 .Async 2]
    (by decide) 1 2 (by decide) (by decide) (by decide)
    (by rw [uintMod]; norm_num)

/-- C8: two distinct EventEmitter instances are fully independent: any
sequence of calls addressed to one instance leaves every other instance
(its registry, raw listener-id counter and serial counter) unchanged. -/
theorem C8_instances_independent (ops : List (Nat × Op)) (i : Nat)
    (w : MWorld) (hops : ∀ p ∈ ops, p.1 = i) (j : Nat) (hij : j ≠ i) :
    (mrun ops w).em j = w.em j := by
  induction ops generalizing w with
  | nil => rfl
  | cons p ops ih =>
      have hp := hops p (List.mem_cons_self p ops)
      have hcons : mrun (p :: ops) w = mrun ops (mstep p w) := rfl
      rw [hcons, ih (mstep p w) (fun q hq => hops q (List.mem_cons_of_mem _ hq))]
      show Function.update w.em p.1 _ j = w.em j
      rw [hp]
      exact Function.update_noteq hij _ _

theorem C8_witness :
    (mrun [(0, Op.On 1 2 .Immediate 3)] minit).em 1 = minit.em 1 :=
  C8_instances_independent [(0, Op.On 1 2 .Immediate 3)] 0 minit
    (by decide) 1 (by decide)

/-- C9: ListenerId allocation is fixed-width unsigned arithmetic: the id
issued by the k-th registration is k reduced modulo 2 ^ 32, ids are strictly
increasing (hence unique) while fewer than 2 ^ 32 registrations have been
made, and beyond that they repeat: the id of registration 2 ^ 32 + 1 equals
the id of registration 1. -/
theorem C9_unsigned_wrap :
    (∀ ops : List Op, (∀ op ∈ ops, isRegistration op = true) →
      ∀ k, k ≤ ops.length → issuedId ops k = k % uintMod)
  ∧ (∀ ops : List Op, (∀ op ∈ ops, isRegistration op = true) →
      ∀ j k, 0 < j → j < k → k ≤ ops.length → k < uintMod →
        issuedId ops j < issuedId ops k)
  ∧ issuedId (List.replicate (uintMod + 1) (Op.On 0 0 .Immediate 0))
        (uintMod + 1)
      = issuedId (List.replicate (uintMod + 1) (Op.On 0 0 .Immediate 0)) 1 := by
  refine ⟨fun ops hreg k hk => issuedId_eq ops hreg k hk, ?_, ?_⟩
  · intro ops hreg j k hj hjk hk hkM
    rw [issuedId_eq ops hreg j (Nat.le_of_lt (Nat.lt_of_lt_of_le hjk hk)),
      issuedId_eq ops hreg k hk,
      Nat.mod_eq_of_lt (Nat.lt_trans hjk hkM), Nat.mod_eq_of_lt hkM]
    exact hjk
  · have hreg : ∀ op ∈ List.replicate (uintMod + 1) (Op.On 0 0 .Immediate 0),
        isRegistration op = true := by
      intro op hop
      rw [List.eq_of_mem_replicate hop]
      rfl
    have hlen : (List.replicate (uintMod + 1)
        (Op.On 0 0 .Immediate 0)).length = uintMod + 1 :=
      List.length_replicate _ _
    rw [issuedId_eq _ hreg (uintMod + 1) (le_of_eq hlen.symm),
      issuedId_eq _ hreg 1 (by rw [hlen]; omega),
      Nat.add_mod_left]

theorem C9_witness :
    issuedId [Op.On 0 0 .Immediate 0, Op.Once 0 1 .Async 2] 2
      = 2 % uintMod :=
  C9_unsigned_wrap.1 [Op.On 0 0 .Immediate 0, Op.Once 0 1 .Async 2]
    (by decide) 2 (by decide)

end Core
